import Mathlib

/-!
# Verification of the DUQ unit/dimension engine

A shallow embedding of the DUQ (dimensions, units, quantities) core:
the atomic-unit registry, unit-expression parser, vector algebra,
conversion engine (with affine offsets) and quantity arithmetic.
The repository ships the package's demonstration notebook; the engine
itself is modelled here from the specification, seeded with the
registry data the demonstrations exercise.  Exponents and numeric
values are exact rationals, as the specification requires for
exponents; all definitions are executable.
-/

namespace Duq

/-- Error taxonomy of the engine (§7 of the specification): parse errors
(unknown unit token, malformed expression), dimension mismatch on
arithmetic/conversion, and invalid affine composition. -/
inductive Err where
  | unknownUnit : String → Err
  | malformedExpression : Err
  | dimensionMismatch : Err
  | invalidAffineComposition : Err
deriving DecidableEq, Repr

/-- Decidable equality of fallible results. -/
instance {ε α : Type} [DecidableEq ε] [DecidableEq α] : DecidableEq (Except ε α)
  | .ok a, .ok b =>
      if h : a = b then isTrue (h ▸ rfl)
      else isFalse (fun hc => h (Except.ok.inj hc))
  | .ok _, .error _ => isFalse (fun hc => Except.noConfusion hc)
  | .error _, .ok _ => isFalse (fun hc => Except.noConfusion hc)
  | .error a, .error b =>
      if h : a = b then isTrue (h ▸ rfl)
      else isFalse (fun hc => h (Except.error.inj hc))

/-- Number of base physical dimensions: mass, length, time, electric
current, temperature, amount of substance, luminous intensity, angle. -/
abbrev nDims : Nat := 8

/-- A dimension vector: rational exponent for each base dimension. -/
abbrev DimVector := Fin nDims → ℚ

/-- Number of atomic units in the modelled registry. -/
abbrev nUnits : Nat := 17

/-- A unit vector: rational exponent for each registered atomic unit
(slots not mentioned in an expression are 0). -/
abbrev UnitVector := Fin nUnits → ℚ

/-- Modelled from the spec: an atomic (elementary) unit of the registry —
symbol, name, base-dimension exponent vector, SI scale factor, optional
affine offset (nonzero only for temperature-like units), is-SI flag, and
the registry slot of its SI equivalent unit. -/
structure AtomicUnit where
  symbol : String
  uname : String
  dims : DimVector
  siScale : ℚ
  siOffset : ℚ
  isSi : Bool
  siEquiv : Fin nUnits
deriving DecidableEq

/-- Modelled from the spec: the atomic-unit registry (the slice of DUQ's
supported units that the demonstrations and claims exercise), in the
declaration order of `Quantity.supported_input_units`.  Dimension slots:
0 mass, 1 length, 2 time, 3 current, 4 temperature, 5 amount,
6 luminous intensity, 7 angle. -/
def atomicUnits : Fin nUnits → AtomicUnit :=
  ![⟨"kg", "kilogram", ![1, 0, 0, 0, 0, 0, 0, 0], 1, 0, true, 0⟩,
    ⟨"g", "gram", ![1, 0, 0, 0, 0, 0, 0, 0], 1/1000, 0, false, 0⟩,
    ⟨"m", "metre", ![0, 1, 0, 0, 0, 0, 0, 0], 1, 0, true, 2⟩,
    ⟨"cm", "centimetre", ![0, 1, 0, 0, 0, 0, 0, 0], 1/100, 0, false, 2⟩,
    ⟨"nm", "nanometre", ![0, 1, 0, 0, 0, 0, 0, 0], 1/1000000000, 0, false, 2⟩,
    ⟨"s", "second", ![0, 0, 1, 0, 0, 0, 0, 0], 1, 0, true, 5⟩,
    ⟨"ns", "nanosecond", ![0, 0, 1, 0, 0, 0, 0, 0], 1/1000000000, 0, false, 5⟩,
    ⟨"A", "ampere", ![0, 0, 0, 1, 0, 0, 0, 0], 1, 0, true, 7⟩,
    ⟨"K", "kelvin", ![0, 0, 0, 0, 1, 0, 0, 0], 1, 0, true, 8⟩,
    ⟨"°C", "degree Celsius", ![0, 0, 0, 0, 1, 0, 0, 0], 1, 5463/20, false, 8⟩,
    ⟨"mol", "mole", ![0, 0, 0, 0, 0, 1, 0, 0], 1, 0, true, 10⟩,
    ⟨"cd", "candela", ![0, 0, 0, 0, 0, 0, 1, 0], 1, 0, true, 11⟩,
    ⟨"rad", "radian", ![0, 0, 0, 0, 0, 0, 0, 1], 1, 0, true, 12⟩,
    ⟨"N", "newton", ![1, 1, -2, 0, 0, 0, 0, 0], 1, 0, true, 13⟩,
    ⟨"J", "joule", ![1, 2, -2, 0, 0, 0, 0, 0], 1, 0, true, 14⟩,
    ⟨"kcal", "kilocalorie", ![1, 2, -2, 0, 0, 0, 0, 0], 4184, 0, false, 14⟩,
    ⟨"eV", "electronvolt", ![1, 2, -2, 0, 0, 0, 0, 0],
      1602176634/10000000000000000000000000000, 0, false, 14⟩]

/-- The zero unit vector (dimensionless, no atomic units). -/
def uvZero : UnitVector := fun _ => 0

/-- Standard basis unit vector: exponent 1 at slot `i`, 0 elsewhere. -/
def basisVec (i : Fin nUnits) : UnitVector := fun j => if j = i then 1 else 0

/-- Vector algebra `add` (unit multiplication): slotwise sum. -/
def uvAdd (u v : UnitVector) : UnitVector := fun i => u i + v i

/-- Vector algebra `subtract` (unit division): slotwise difference. -/
def uvSub (u v : UnitVector) : UnitVector := fun i => u i - v i

/-- Vector algebra `scale` (unit exponentiation): slotwise scalar multiple. -/
def uvScale (c : ℚ) (u : UnitVector) : UnitVector := fun i => c * u i

/-- Dimension of a unit vector: the sum over registry slots of the slot's
exponent times the atomic unit's base-dimension vector. -/
def dimensionOf (u : UnitVector) : DimVector := fun d =>
  ((List.finRange nUnits).map (fun i => u i * (atomicUnits i).dims d)).sum

/-! ## Unit expression parser (§4.2)

The grammar, over strings (modelled at the level of character lists):
`unit := term ('.' term)*`, `term := atom ('^' exponent)?`,
`exponent := ['-'] integer ['/' integer]`, `atom` a registered symbol
or name.  Denominator 0 is a syntax error; an unrecognized atom is
`Err.unknownUnit`; other malformations are `Err.malformedExpression`. -/

/-- Split a character list at every occurrence of `sep` (the pieces do
not contain `sep`; always returns at least one piece). -/
def splitOnChar (sep : Char) : List Char → List (List Char)
  | [] => [[]]
  | c :: cs =>
      match splitOnChar sep cs with
      | [] => [[]]
      | t :: ts => if c = sep then [] :: t :: ts else (c :: t) :: ts

/-- Is `c` a decimal digit? -/
def isDigitCh (c : Char) : Bool := '0' ≤ c && c ≤ '9'

/-- Numeric value of a digit character. -/
def digitVal (c : Char) : Nat := c.toNat - '0'.toNat

/-- Character for the digit `n` (`n < 10`). -/
def digitCh (n : Nat) : Char := Char.ofNat ('0'.toNat + n)

/-- Decimal digits of `n`, most significant first, accumulator/fuel form
(structural recursion so that concrete evaluation reduces). -/
def natDigitsAux : Nat → Nat → List Char → List Char
  | 0, _, acc => acc
  | fuel + 1, n, acc =>
      if n < 10 then digitCh n :: acc
      else natDigitsAux fuel (n / 10) (digitCh (n % 10) :: acc)

/-- Decimal digits of `n`, most significant first. -/
def natDigits (n : Nat) : List Char := natDigitsAux (n + 1) n []

/-- Parse an unsigned decimal integer; `none` if empty or non-digit. -/
def parseNatDigits (cs : List Char) : Option Nat :=
  if cs ≠ [] ∧ cs.all isDigitCh then
    some (cs.foldl (fun acc c => acc * 10 + digitVal c) 0)
  else none

/-- Parse the unsigned part of an exponent (`integer ['/' integer]`)
against a sign already read; denominator 0 is rejected. -/
def parseExpCore (sgn : ℚ) (body : List Char) : Option ℚ :=
  match splitOnChar '/' body with
  | [a] => (parseNatDigits a).map (fun n => sgn * (n : ℚ))
  | [a, b] =>
      match parseNatDigits a, parseNatDigits b with
      | some n, some d => if d = 0 then none else some (sgn * (n : ℚ) / (d : ℚ))
      | _, _ => none
  | _ => none

/-- Parse an exponent: optional leading minus, integer, optional
`/ integer`. -/
def parseExp (cs : List Char) : Option ℚ :=
  if cs.head? = some '-' then parseExpCore (-1) cs.tail else parseExpCore 1 cs

/-- Registry lookup by exact symbol or exact name (§4.1). -/
def lookupUnit (cs : List Char) : Option (Fin nUnits) :=
  (List.finRange nUnits).find? fun i =>
    (atomicUnits i).symbol.data == cs || (atomicUnits i).uname.data == cs

/-- Parse one term `atom ('^' exponent)?` into (registry slot, exponent). -/
def parseTerm (cs : List Char) : Except Err (Fin nUnits × ℚ) :=
  match splitOnChar '^' cs with
  | [a] =>
      match lookupUnit a with
      | some i => .ok (i, 1)
      | none => .error (.unknownUnit ⟨a⟩)
  | [a, e] =>
      match lookupUnit a with
      | some i =>
          match parseExp e with
          | some q => .ok (i, q)
          | none => .error .malformedExpression
      | none => .error (.unknownUnit ⟨a⟩)
  | _ => .error .malformedExpression

/-- Accumulate parsed terms by vector addition of `exponent • basis`. -/
def parseTermList : List (List Char) → Except Err UnitVector
  | [] => .ok uvZero
  | t :: ts => do
      let (i, e) ← parseTerm t
      let v ← parseTermList ts
      .ok (uvAdd (uvScale e (basisVec i)) v)

/-- Parse a unit expression into a `UnitVector`. -/
def parse (s : String) : Except Err UnitVector :=
  parseTermList (splitOnChar '.' s.data)

/-! ## Canonical as-is display (§4.5/§6)

The resolver's canonical as-is rendering of a unit vector: the nonzero
slots in registry order, each as `symbol` (exponent 1) or
`symbol^exponent`, joined by `.`; exponents are rendered exactly as
`[-]num[/den]`. -/

/-- Render a rational exponent exactly: optional minus, numerator,
`/denominator` when the denominator is not 1. -/
def renderExp (q : ℚ) : List Char :=
  (if q < 0 then ['-'] else []) ++ natDigits q.num.natAbs ++
    (if q.den = 1 then [] else '/' :: natDigits q.den)

/-- Render one term of the display: symbol, plus `^exponent` unless the
exponent is 1. -/
def renderTerm (i : Fin nUnits) (e : ℚ) : List Char :=
  (atomicUnits i).symbol.data ++ (if e = 1 then [] else '^' :: renderExp e)

/-- Join character-list pieces with `.`. -/
def joinDots : List (List Char) → List Char
  | [] => []
  | [t] => t
  | t :: ts => t ++ '.' :: joinDots ts

/-- Slots shown by the as-is display, in canonical order: slots with
positive exponent in registry order, then slots with negative exponent
in registry order (the order the demonstrations show, e.g.
`kcal.mol⁻¹`, `J.N⁻¹`). -/
def displaySlots (u : UnitVector) : List (Fin nUnits) :=
  (List.finRange nUnits).filter (fun i => 0 < u i) ++
    (List.finRange nUnits).filter (fun i => u i < 0)

/-- Modelled from the spec: the canonical "as-is" display of a unit
vector (the parseable form of the resolver's as-is view). -/
def displayAsIs (u : UnitVector) : String :=
  ⟨joinDots ((displaySlots u).map (fun i => renderTerm i (u i)))⟩

/-! ## Conversion engine (§4.4) -/

/-- SI scale (or offset) view of a unit: the SI-primary unit vector,
the multiplicative scale to SI, and the additive offset. -/
structure SiView where
  uvec : UnitVector
  scale : ℚ
  offset : ℚ

/-- Equality of SI views is decided fieldwise (stated through
`decidable_of_iff` so that concrete instances evaluate). -/
instance : DecidableEq SiView := fun a b =>
  decidable_of_iff (a.uvec = b.uvec ∧ a.scale = b.scale ∧ a.offset = b.offset)
    (by cases a; cases b; simp)

/-- Modelled from the spec: a scale factor raised to a rational
exponent.  Exact when the exponent is an integer (the only case the
conversion engine is exercised on by the demonstrations; a fractional
exponent of a scale factor is generally irrational and outside this
exact-rational embedding, marked by the value 0). -/
def scalePow (b : ℚ) (e : ℚ) : ℚ :=
  if e.den = 1 then b ^ e.num else 0

/-- The SI scale of a unit vector: product over slots of the atomic
unit's SI scale factor raised to the slot's exponent. -/
def siScaleOf (u : UnitVector) : ℚ :=
  ((List.finRange nUnits).map (fun i => scalePow (atomicUnits i).siScale (u i))).prod

/-- The SI-primary unit vector: each atomic unit replaced by its SI
equivalent (at the same exponent). -/
def siUnitVec (u : UnitVector) : UnitVector := fun j =>
  ((List.finRange nUnits).map
      (fun i => if (atomicUnits i).siEquiv = j then u i else 0)).sum

/-- First registry slot that is used with nonzero exponent and carries a
nonzero affine offset (if any). -/
def affineSlot (u : UnitVector) : Option (Fin nUnits) :=
  (List.finRange nUnits).find? fun i =>
    decide (u i ≠ 0) && decide ((atomicUnits i).siOffset ≠ 0)

/-- `siForm`: the SI view of a unit vector.  An affine atomic unit is
only valid with exponent exactly 1 as the sole nonzero term; every
other use of an affine unit is `Err.invalidAffineComposition`. -/
def siForm (u : UnitVector) : Except Err SiView :=
  match affineSlot u with
  | none => .ok ⟨siUnitVec u, siScaleOf u, 0⟩
  | some i =>
      if u = basisVec i then
        .ok ⟨siUnitVec u, siScaleOf u, (atomicUnits i).siOffset⟩
      else .error .invalidAffineComposition

/-- Convert a numeric value from one unit to another through the SI
reference: `valueSI = value × scale(from) + offset(from)`, then
`result = (valueSI − offset(to)) / scale(to)`; requires equal
dimensions, else `Err.dimensionMismatch`. -/
def convertValue (v : ℚ) (uFrom uTo : UnitVector) : Except Err ℚ :=
  if dimensionOf uFrom ≠ dimensionOf uTo then .error .dimensionMismatch
  else do
    let f ← siForm uFrom
    let t ← siForm uTo
    .ok ((v * f.scale + f.offset - t.offset) / t.scale)

/-- `conversionFactor(from, to)`: requires equal dimensions, else
`Err.dimensionMismatch`; the ratio of the SI scales. -/
def conversionFactor (uFrom uTo : UnitVector) : Except Err ℚ :=
  if dimensionOf uFrom ≠ dimensionOf uTo then .error .dimensionMismatch
  else do
    let f ← siForm uFrom
    let t ← siForm uTo
    .ok (f.scale / t.scale)

/-! ## Quantity arithmetic (§4.6) -/

/-- A physical quantity: a numeric value paired with a unit. -/
structure Quantity where
  value : ℚ
  unit : UnitVector

/-- Equality of quantities is decided fieldwise. -/
instance : DecidableEq Quantity := fun a b =>
  decidable_of_iff (a.value = b.value ∧ a.unit = b.unit)
    (by cases a; cases b; simp)

/-- `add(a, b)`: requires equal dimensions, else
`Err.dimensionMismatch`; result unit is `a`'s unit, result value is
`a.value` plus `b`'s value converted into `a`'s unit. -/
def Quantity.add (a b : Quantity) : Except Err Quantity :=
  if dimensionOf a.unit ≠ dimensionOf b.unit then .error .dimensionMismatch
  else (convertValue b.value b.unit a.unit).map fun cv => ⟨a.value + cv, a.unit⟩

/-- `subtract(a, b)`: like `add`, with the converted value subtracted. -/
def Quantity.subtract (a b : Quantity) : Except Err Quantity :=
  if dimensionOf a.unit ≠ dimensionOf b.unit then .error .dimensionMismatch
  else (convertValue b.value b.unit a.unit).map fun cv => ⟨a.value - cv, a.unit⟩

/-- `multiply(a, b)`: unit vectors added, values multiplied plainly —
no conversion factor, no simplification. -/
def Quantity.multiply (a b : Quantity) : Quantity :=
  ⟨a.value * b.value, uvAdd a.unit b.unit⟩

/-- `divide(a, b)`: unit vectors subtracted, values divided plainly. -/
def Quantity.divide (a b : Quantity) : Quantity :=
  ⟨a.value / b.value, uvSub a.unit b.unit⟩

/-- `equals(a, b)`: `false` (no error) when the dimensions differ, else
convert `b`'s value into `a`'s unit and compare numerically. -/
def Quantity.equals (a b : Quantity) : Except Err Bool :=
  if dimensionOf a.unit ≠ dimensionOf b.unit then .ok false
  else (convertValue b.value b.unit a.unit).map fun cv => decide (a.value = cv)

/-- `convertUnit(a, targetUnit)`: requires equal dimensions; the new
quantity with the target unit and the converted value. -/
def Quantity.convertUnit (a : Quantity) (target : UnitVector) : Except Err Quantity :=
  (convertValue a.value a.unit target).map fun v => ⟨v, target⟩

/-- `convertUnitToSi(a)`: shortcut for conversion to the unit's SI
form. -/
def Quantity.convertUnitToSi (a : Quantity) : Except Err Quantity := do
  let f ← siForm a.unit
  a.convertUnit f.uvec

/-- Modelled from the spec: `convertUnit` with its `inplace` flag, as
explicit state passing — the pair is (returned result, state of the
receiver `a` after the call).  Non-in-place leaves `a` as it was;
in-place overwrites it with the converted quantity; a failing call
leaves `a` unchanged. -/
def Quantity.convertUnitSt (a : Quantity) (target : UnitVector) (inplace : Bool) :
    Except Err Quantity × Quantity :=
  match a.convertUnit target with
  | .error e => (.error e, a)
  | .ok r => (.ok r, if inplace then r else a)

/-- Modelled from the spec: `convertUnitToSi` with its `inplace` flag,
as explicit state passing (result, state of `a` after the call). -/
def Quantity.convertUnitToSiSt (a : Quantity) (inplace : Bool) :
    Except Err Quantity × Quantity :=
  match siForm a.unit with
  | .error e => (.error e, a)
  | .ok f => a.convertUnitSt f.uvec inplace

/-- `is_in_si_unit`: the unit is exclusively composed of SI atomic
units (every slot with nonzero exponent is flagged is-SI). -/
def Quantity.isInSiUnit (q : Quantity) : Bool :=
  decide (∀ i, q.unit i ≠ 0 → (atomicUnits i).isSi = true)

/-! ## Named unit vectors used by the demonstrations -/

/-- Kilogram. -/
def uKg : UnitVector := basisVec 0

/-- Metre. -/
def uM : UnitVector := basisVec 2

/-- Centimetre. -/
def uCm : UnitVector := basisVec 3

/-- Second. -/
def uS : UnitVector := basisVec 5

/-- Kelvin. -/
def uK : UnitVector := basisVec 8

/-- Degree Celsius (affine). -/
def uCel : UnitVector := basisVec 9

/-- Newton. -/
def uN : UnitVector := basisVec 13

/-- Joule. -/
def uJ : UnitVector := basisVec 14

/-- Kilocalorie. -/
def uKcal : UnitVector := basisVec 15

/-- The compound SI energy unit `kg.m^2.s^-2`. -/
def uEnergySi : UnitVector :=
  uvAdd (basisVec 0) (uvAdd (uvScale 2 (basisVec 2)) (uvScale (-2) (basisVec 5)))

/-- The compound SI force unit `kg.m.s^-2`. -/
def uForceSi : UnitVector :=
  uvAdd (basisVec 0) (uvAdd (basisVec 2) (uvScale (-2) (basisVec 5)))

/-- Joule-second, `J.s`. -/
def uJs : UnitVector := uvAdd (basisVec 14) (basisVec 5)

/-- Joule-nanosecond, `J.ns`. -/
def uJns : UnitVector := uvAdd (basisVec 14) (basisVec 6)

/-- Recombination of a unit vector from a list of slots: the sum of
`u i • basis i` over the listed slots (the vector a parsed display
denotes). -/
def sumSlots (u : UnitVector) : List (Fin nUnits) → UnitVector
  | [] => uvZero
  | i :: l => uvAdd (uvScale (u i) (basisVec i)) (sumSlots u l)

end Duq

attribute [local semireducible] Rat.add Rat.mul Rat.sub Rat.inv

set_option maxRecDepth 20000

namespace Duq

/-! ## Helper lemmas about the conversion engine -/

/-- Mapping over a fallible result preserves (exactly) its errors. -/
theorem except_map_error_iff {α β : Type} (f : α → β) (x : Except Err α) (e : Err) :
    x.map f = .error e ↔ x = .error e := by
  cases x <;> simp [Except.map]

/-- A slot found by `affineSlot` is used with nonzero exponent and has
a nonzero offset. -/
theorem affineSlot_some {u : UnitVector} {i : Fin nUnits}
    (h : affineSlot u = some i) :
    u i ≠ 0 ∧ (atomicUnits i).siOffset ≠ 0 := by
  have hp := List.find?_some h
  simp only [Bool.and_eq_true, decide_eq_true_eq] at hp
  exact hp

/-- `affineSlot` finds nothing exactly when no slot is both used and
affine. -/
theorem affineSlot_eq_none_iff {u : UnitVector} :
    affineSlot u = none ↔ ∀ i, u i = 0 ∨ (atomicUnits i).siOffset = 0 := by
  rw [affineSlot, List.find?_eq_none]
  constructor
  · intro h i
    have := h i (List.mem_finRange i)
    simp only [Bool.and_eq_true, decide_eq_true_eq, not_and_or, not_not] at this
    exact this
  · intro h i _
    simp only [Bool.and_eq_true, decide_eq_true_eq, not_and_or, not_not]
    exact h i

/-- `siForm` on a vector with no affine slot. -/
theorem siForm_of_none {u : UnitVector} (h : affineSlot u = none) :
    siForm u = .ok ⟨siUnitVec u, siScaleOf u, 0⟩ := by
  simp only [siForm, h]

/-- `siForm` on a sole affine basis vector. -/
theorem siForm_of_some_basis {u : UnitVector} {i : Fin nUnits}
    (h : affineSlot u = some i) (hb : u = basisVec i) :
    siForm u = .ok ⟨siUnitVec u, siScaleOf u, (atomicUnits i).siOffset⟩ := by
  simp only [siForm, h]
  rw [if_pos hb]

/-- `siForm` on an invalid affine composition. -/
theorem siForm_of_some_not_basis {u : UnitVector} {i : Fin nUnits}
    (h : affineSlot u = some i) (hb : u ≠ basisVec i) :
    siForm u = .error .invalidAffineComposition := by
  simp only [siForm, h]
  rw [if_neg hb]

/-- The only error `siForm` raises is the affine-composition one. -/
theorem siForm_error_eq {u : UnitVector} {e : Err}
    (h : siForm u = .error e) : e = .invalidAffineComposition := by
  cases ha : affineSlot u with
  | none => rw [siForm_of_none ha] at h; exact Except.noConfusion h
  | some i =>
      by_cases hb : u = basisVec i
      · rw [siForm_of_some_basis ha hb] at h; exact Except.noConfusion h
      · rw [siForm_of_some_not_basis ha hb] at h
        exact (Except.error.inj h).symm

/-- A basis vector is nonzero only at its own slot. -/
theorem basisVec_ne_zero {i j : Fin nUnits} (h : basisVec j i ≠ 0) : i = j := by
  by_contra hij
  simp [basisVec, if_neg hij] at h

/-- `convertValue` raises `dimensionMismatch` exactly when the two
dimension vectors differ. -/
theorem convertValue_dimensionMismatch_iff (v : ℚ) (uF uT : UnitVector) :
    convertValue v uF uT = .error .dimensionMismatch ↔
      dimensionOf uF ≠ dimensionOf uT := by
  constructor
  · intro h
    by_cases hd : dimensionOf uF ≠ dimensionOf uT
    · exact hd
    · exfalso
      rw [convertValue, if_neg hd] at h
      cases hf : siForm uF with
      | error e =>
          rw [hf] at h
          have he := Except.error.inj h
          rw [siForm_error_eq hf] at he
          exact Err.noConfusion he
      | ok f =>
          cases ht : siForm uT with
          | error e =>
              rw [hf, ht] at h
              have he := Except.error.inj h
              rw [siForm_error_eq ht] at he
              exact Err.noConfusion he
          | ok t =>
              rw [hf, ht] at h
              exact Except.noConfusion h
  · intro h
    rw [convertValue, if_pos h]

/-- `conversionFactor` raises `dimensionMismatch` exactly when the two
dimension vectors differ. -/
theorem conversionFactor_dimensionMismatch_iff (uF uT : UnitVector) :
    conversionFactor uF uT = .error .dimensionMismatch ↔
      dimensionOf uF ≠ dimensionOf uT := by
  constructor
  · intro h
    by_cases hd : dimensionOf uF ≠ dimensionOf uT
    · exact hd
    · exfalso
      rw [conversionFactor, if_neg hd] at h
      cases hf : siForm uF with
      | error e =>
          rw [hf] at h
          have he := Except.error.inj h
          rw [siForm_error_eq hf] at he
          exact Err.noConfusion he
      | ok f =>
          cases ht : siForm uT with
          | error e =>
              rw [hf, ht] at h
              have he := Except.error.inj h
              rw [siForm_error_eq ht] at he
              exact Err.noConfusion he
          | ok t =>
              rw [hf, ht] at h
              exact Except.noConfusion h
  · intro h
    rw [conversionFactor, if_pos h]

/-! ## Digit rendering and parsing round trip -/

/-- The digit accumulator only prepends to its accumulator. -/
theorem natDigitsAux_acc (fuel : Nat) : ∀ (n : Nat) (acc : List Char),
    natDigitsAux fuel n acc = natDigitsAux fuel n [] ++ acc := by
  induction fuel with
  | zero => intro n acc; rfl
  | succ f ih =>
      intro n acc
      simp only [natDigitsAux]
      by_cases h : n < 10
      · rw [if_pos h, if_pos h]; rfl
      · rw [if_neg h, if_neg h, ih (n / 10) (digitCh (n % 10) :: acc),
          ih (n / 10) [digitCh (n % 10)], List.append_assoc]
        rfl

/-- Digits of a single-digit number. -/
theorem natDigits_lt {n : Nat} (h : n < 10) : natDigits n = [digitCh n] := by
  simp only [natDigits, natDigitsAux, if_pos h]

/-- Any sufficient fuel computes the same digits. -/
theorem natDigitsAux_irrel : ∀ (n f₁ f₂ : Nat), n < f₁ → n < f₂ →
    natDigitsAux f₁ n [] = natDigitsAux f₂ n [] := by
  intro n
  induction n using Nat.strong_induction_on with
  | _ n ih =>
      intro f₁ f₂ h₁ h₂
      cases f₁ with
      | zero => omega
      | succ g₁ =>
          cases f₂ with
          | zero => omega
          | succ g₂ =>
              simp only [natDigitsAux]
              by_cases h : n < 10
              · rw [if_pos h, if_pos h]
              · rw [if_neg h, if_neg h,
                  natDigitsAux_acc g₁ (n / 10) [digitCh (n % 10)],
                  natDigitsAux_acc g₂ (n / 10) [digitCh (n % 10)],
                  ih (n / 10) (by omega) g₁ g₂ (by omega) (by omega)]

/-- Digits of a multi-digit number: digits of the quotient, then the
last digit. -/
theorem natDigits_ge {n : Nat} (h : 10 ≤ n) :
    natDigits n = natDigits (n / 10) ++ [digitCh (n % 10)] := by
  have h1 : natDigits n = natDigitsAux n (n / 10) [digitCh (n % 10)] := by
    simp only [natDigits, natDigitsAux]
    rw [if_neg (by omega)]
  rw [h1, natDigitsAux_acc n (n / 10) [digitCh (n % 10)], natDigits,
    natDigitsAux_irrel (n / 10) n (n / 10 + 1) (by omega) (by omega)]

/-- Digit characters are decimal digits. -/
theorem digitCh_isDigit {n : Nat} (h : n < 10) : isDigitCh (digitCh n) = true := by
  interval_cases n <;> decide

/-- Reading a digit character back gives the digit. -/
theorem digitVal_digitCh {n : Nat} (h : n < 10) : digitVal (digitCh n) = n := by
  interval_cases n <;> decide

/-- Every character of a digit rendering is a decimal digit. -/
theorem natDigits_all_digit : ∀ n, (natDigits n).all isDigitCh = true := by
  intro n
  induction n using Nat.strong_induction_on with
  | _ n ih =>
      by_cases h : n < 10
      · rw [natDigits_lt h]; simp [digitCh_isDigit h]
      · rw [natDigits_ge (by omega), List.all_append]
        simp [ih (n / 10) (by omega), digitCh_isDigit (show n % 10 < 10 by omega)]

/-- A digit rendering is never empty. -/
theorem natDigits_ne_nil (n : Nat) : natDigits n ≠ [] := by
  by_cases h : n < 10
  · rw [natDigits_lt h]; simp
  · rw [natDigits_ge (by omega)]; simp

/-- Membership form of `natDigits_all_digit`. -/
theorem mem_natDigits_digit {c : Char} {n : Nat} (h : c ∈ natDigits n) :
    isDigitCh c = true := by
  have hall := natDigits_all_digit n
  rw [List.all_eq_true] at hall
  exact hall c h

/-- Reading the decimal rendering back gives the number. -/
theorem foldl_natDigits (n : Nat) :
    (natDigits n).foldl (fun acc c => acc * 10 + digitVal c) 0 = n := by
  induction n using Nat.strong_induction_on with
  | _ n ih =>
      by_cases h : n < 10
      · rw [natDigits_lt h]
        simp [digitVal_digitCh h]
      · rw [natDigits_ge (by omega), List.foldl_append, ih (n / 10) (by omega)]
        simp [digitVal_digitCh (show n % 10 < 10 by omega)]
        omega

/-- The integer parser inverts the digit rendering. -/
theorem parseNatDigits_natDigits (n : Nat) :
    parseNatDigits (natDigits n) = some n := by
  rw [parseNatDigits, if_pos ⟨natDigits_ne_nil n, natDigits_all_digit n⟩,
    foldl_natDigits]

/-! ## Splitter lemmas -/

/-- The splitter always produces at least one piece. -/
theorem splitOnChar_ne_nil (sep : Char) (cs : List Char) :
    splitOnChar sep cs ≠ [] := by
  cases cs with
  | nil => simp [splitOnChar]
  | cons c cs =>
      simp only [splitOnChar]
      cases h : splitOnChar sep cs with
      | nil => simp
      | cons t ts => by_cases hc : c = sep <;> simp [hc]

/-- Splitting a separator-free list yields that one piece. -/
theorem splitOnChar_of_not_mem (sep : Char) : ∀ (cs : List Char), sep ∉ cs →
    splitOnChar sep cs = [cs] := by
  intro cs
  induction cs with
  | nil => intro _; rfl
  | cons c cs ih =>
      intro h
      simp only [List.mem_cons, not_or] at h
      simp only [splitOnChar, ih h.2]
      rw [if_neg (fun hc => h.1 hc.symm)]

/-- Splitting after a separator-free prefix peels off that prefix. -/
theorem splitOnChar_append (sep : Char) : ∀ (a b : List Char), sep ∉ a →
    splitOnChar sep (a ++ sep :: b) = a :: splitOnChar sep b := by
  intro a
  induction a with
  | nil =>
      intro b _
      simp only [List.nil_append, splitOnChar]
      cases h : splitOnChar sep b with
      | nil => exact absurd h (splitOnChar_ne_nil sep b)
      | cons t ts => simp
  | cons c a ih =>
      intro b h
      simp only [List.mem_cons, not_or] at h
      have step : splitOnChar sep (c :: (a ++ sep :: b)) =
          match splitOnChar sep (a ++ sep :: b) with
          | [] => [[]]
          | t :: ts => if c = sep then [] :: t :: ts else (c :: t) :: ts := rfl
      rw [List.cons_append, step, ih b h.2]
      show (if c = sep then [] :: a :: splitOnChar sep b
        else (c :: a) :: splitOnChar sep b) = (c :: a) :: splitOnChar sep b
      rw [if_neg (fun hc => h.1 hc.symm)]

/-! ## Exponent round trip -/

/-- `parseExpCore` inverts a rendered plain integer. -/
theorem parseExpCore_single (sgn : ℚ) (n : Nat) :
    parseExpCore sgn (natDigits n) = some (sgn * n) := by
  have hs : splitOnChar '/' (natDigits n) = [natDigits n] :=
    splitOnChar_of_not_mem '/' (natDigits n)
      (fun hm => absurd (mem_natDigits_digit hm) (by decide))
  simp [parseExpCore, hs, parseNatDigits_natDigits]

/-- `parseExpCore` inverts a rendered fraction. -/
theorem parseExpCore_pair (sgn : ℚ) (n d : Nat) (hd : d ≠ 0) :
    parseExpCore sgn (natDigits n ++ '/' :: natDigits d) =
      some (sgn * n / d) := by
  have hs : splitOnChar '/' (natDigits n ++ '/' :: natDigits d)
      = [natDigits n, natDigits d] := by
    rw [splitOnChar_append '/' (natDigits n) (natDigits d)
        (fun hm => absurd (mem_natDigits_digit hm) (by decide)),
      splitOnChar_of_not_mem '/' (natDigits d)
        (fun hm => absurd (mem_natDigits_digit hm) (by decide))]
  simp [parseExpCore, hs, parseNatDigits_natDigits, hd]

/-- The first character of a digit rendering exists and is a digit. -/
theorem natDigits_head (n : Nat) :
    ∃ c rest, natDigits n = c :: rest ∧ isDigitCh c = true := by
  cases hd : natDigits n with
  | nil => exact absurd hd (natDigits_ne_nil n)
  | cons c rest =>
      exact ⟨c, rest, rfl, mem_natDigits_digit (hd ▸ List.mem_cons_self c rest)⟩

/-- The exponent parser inverts the exact exponent rendering. -/
theorem parseExp_renderExp (q : ℚ) : parseExp (renderExp q) = some q := by
  obtain ⟨c, rest, hds, hcd⟩ := natDigits_head q.num.natAbs
  have hcneg : c ≠ '-' := by rintro rfl; revert hcd; decide
  have hdq : ((q.den : ℕ) : ℚ) ≠ 0 := Nat.cast_ne_zero.mpr q.den_nz
  by_cases hq : q < 0
  · have hnum : q.num ≤ 0 := by
      have h0 : ¬ (0 : ℚ) ≤ q := not_le.mpr hq
      have h1 : ¬ (0 : ℤ) ≤ q.num := fun hn => h0 (Rat.num_nonneg.mp hn)
      omega
    have hcast : ((q.num.natAbs : ℕ) : ℚ) = -(q.num : ℚ) := by
      rw [Int.cast_natAbs, abs_of_nonpos hnum, Int.cast_neg]
    have hr : renderExp q = '-' :: (natDigits q.num.natAbs ++
        (if q.den = 1 then [] else '/' :: natDigits q.den)) := by
      rw [renderExp, if_pos hq]; rfl
    rw [hr, parseExp]
    show parseExpCore (-1) (natDigits q.num.natAbs ++
      (if q.den = 1 then [] else '/' :: natDigits q.den)) = some q
    by_cases hden : q.den = 1
    · rw [if_pos hden, List.append_nil, parseExpCore_single, hcast]
      congr 1
      rw [neg_mul_neg, one_mul]
      conv_rhs => rw [← Rat.num_div_den q]
      rw [hden]
      simp
    · rw [if_neg hden, parseExpCore_pair (-1) _ _ q.den_nz, hcast]
      congr 1
      rw [neg_mul_neg, one_mul]
      conv_rhs => rw [← Rat.num_div_den q]
  · have hnum : 0 ≤ q.num := Rat.num_nonneg.mpr (not_lt.mp hq)
    have hcast : ((q.num.natAbs : ℕ) : ℚ) = (q.num : ℚ) := by
      rw [Int.cast_natAbs, abs_of_nonneg hnum]
    have hr : renderExp q = natDigits q.num.natAbs ++
        (if q.den = 1 then [] else '/' :: natDigits q.den) := by
      rw [renderExp, if_neg hq, List.nil_append]
    have hhead : (natDigits q.num.natAbs ++
        (if q.den = 1 then [] else '/' :: natDigits q.den)).head? = some c := by
      rw [hds, List.cons_append, List.head?_cons]
    rw [hr, parseExp, if_neg (fun hh => hcneg (Option.some.inj (hhead ▸ hh)))]
    by_cases hden : q.den = 1
    · rw [if_pos hden, List.append_nil, parseExpCore_single, hcast]
      congr 1
      rw [one_mul]
      conv_rhs => rw [← Rat.num_div_den q]
      rw [hden]
      simp
    · rw [if_neg hden, parseExpCore_pair 1 _ _ q.den_nz, hcast]
      congr 1
      rw [one_mul]
      conv_rhs => rw [← Rat.num_div_den q]

/-! ## Term and full-expression round trip -/

/-- Looking up a registered symbol finds its own slot. -/
theorem lookupUnit_symbol : ∀ i : Fin nUnits,
    lookupUnit ((atomicUnits i).symbol.data) = some i := by decide

/-- No registered symbol contains an exponentiation mark. -/
theorem symbol_no_hat : ∀ i : Fin nUnits,
    '^' ∉ (atomicUnits i).symbol.data := by decide

/-- No registered symbol contains a composition dot. -/
theorem symbol_no_dot : ∀ i : Fin nUnits,
    '.' ∉ (atomicUnits i).symbol.data := by decide

/-- Characters of a rendered exponent: minus, slash, or digits. -/
theorem renderExp_chars {c : Char} {q : ℚ} (h : c ∈ renderExp q) :
    c = '-' ∨ c = '/' ∨ isDigitCh c = true := by
  rw [renderExp] at h
  rcases List.mem_append.mp h with h12 | h3
  · rcases List.mem_append.mp h12 with h1 | h2
    · revert h1
      split_ifs <;> intro h1
      · exact .inl (List.mem_singleton.mp h1)
      · exact absurd h1 (List.not_mem_nil c)
    · exact .inr (.inr (mem_natDigits_digit h2))
  · revert h3
    split_ifs <;> intro h3
    · exact absurd h3 (List.not_mem_nil c)
    · rcases List.mem_cons.mp h3 with h4 | h4
      · exact .inr (.inl h4)
      · exact .inr (.inr (mem_natDigits_digit h4))

/-- A rendered exponent never contains the exponentiation mark. -/
theorem renderExp_no_hat {q : ℚ} : '^' ∉ renderExp q := by
  intro h
  rcases renderExp_chars h with h | h | h
  · exact absurd h (by decide)
  · exact absurd h (by decide)
  · exact absurd h (by decide)

/-- A rendered exponent never contains the composition dot. -/
theorem renderExp_no_dot {q : ℚ} : '.' ∉ renderExp q := by
  intro h
  rcases renderExp_chars h with h | h | h
  · exact absurd h (by decide)
  · exact absurd h (by decide)
  · exact absurd h (by decide)

/-- A rendered term never contains the composition dot. -/
theorem renderTerm_no_dot (i : Fin nUnits) (e : ℚ) :
    '.' ∉ renderTerm i e := by
  rw [renderTerm]
  intro h
  rcases List.mem_append.mp h with h | h
  · exact symbol_no_dot i h
  · revert h
    split_ifs
    · exact List.not_mem_nil '.'
    · intro h
      rcases List.mem_cons.mp h with h | h
      · exact absurd h (by decide)
      · exact renderExp_no_dot h

/-- The term parser inverts the term rendering. -/
theorem parseTerm_renderTerm (i : Fin nUnits) (e : ℚ) :
    parseTerm (renderTerm i e) = .ok (i, e) := by
  by_cases he : e = 1
  · subst he
    have hs : splitOnChar '^' ((atomicUnits i).symbol.data)
        = [(atomicUnits i).symbol.data] :=
      splitOnChar_of_not_mem '^' _ (symbol_no_hat i)
    simp [renderTerm, parseTerm, hs, lookupUnit_symbol i]
  · rw [renderTerm, if_neg he]
    have hs : splitOnChar '^' ((atomicUnits i).symbol.data ++ '^' :: renderExp e)
        = [(atomicUnits i).symbol.data, renderExp e] := by
      rw [splitOnChar_append '^' _ _ (symbol_no_hat i),
        splitOnChar_of_not_mem '^' _ renderExp_no_hat]
    simp [parseTerm, hs, lookupUnit_symbol i, parseExp_renderExp e]

/-- Parsing a list of rendered terms recombines the listed slots. -/
theorem parseTermList_map (u : UnitVector) : ∀ l : List (Fin nUnits),
    parseTermList (l.map (fun i => renderTerm i (u i))) = .ok (sumSlots u l) := by
  intro l
  induction l with
  | nil => rfl
  | cons i l ih =>
      simp only [List.map_cons, parseTermList, parseTerm_renderTerm, ih,
        sumSlots]
      rfl

/-- Value of a slot recombination at each coordinate. -/
theorem sumSlots_apply (u : UnitVector) : ∀ l : List (Fin nUnits), l.Nodup →
    ∀ j, sumSlots u l j = if j ∈ l then u j else 0 := by
  intro l
  induction l with
  | nil => intro _ j; simp [sumSlots, uvZero]
  | cons i l ih =>
      intro hnd j
      rw [List.nodup_cons] at hnd
      simp only [sumSlots, uvAdd, uvScale, basisVec]
      rw [ih hnd.2 j]
      by_cases hji : j = i
      · rw [if_pos hji, mul_one, if_neg (fun hm => hnd.1 (hji ▸ hm)),
          add_zero, if_pos (List.mem_cons.mpr (Or.inl hji)), hji]
      · rw [if_neg hji, mul_zero, zero_add]
        by_cases hjl : j ∈ l
        · rw [if_pos hjl, if_pos (List.mem_cons_of_mem i hjl)]
        · rw [if_neg hjl,
            if_neg (fun hm => (List.mem_cons.mp hm).elim hji hjl)]

/-- A slot is displayed exactly when its exponent is nonzero. -/
theorem mem_displaySlots {u : UnitVector} {j : Fin nUnits} :
    j ∈ displaySlots u ↔ u j ≠ 0 := by
  simp only [displaySlots, List.mem_append, List.mem_filter,
    List.mem_finRange, true_and, decide_eq_true_eq]
  rw [← lt_or_lt_iff_ne]
  exact or_comm

/-- The displayed slots are pairwise distinct. -/
theorem displaySlots_nodup (u : UnitVector) : (displaySlots u).Nodup := by
  rw [displaySlots]
  apply List.Nodup.append
  · exact (List.nodup_finRange nUnits).filter _
  · exact (List.nodup_finRange nUnits).filter _
  · intro j hj1 hj2
    simp only [List.mem_filter, decide_eq_true_eq] at hj1 hj2
    exact absurd (lt_trans hj1.2 hj2.2) (lt_irrefl 0)

/-- Recombining the displayed slots recovers the unit vector. -/
theorem sumSlots_displaySlots (u : UnitVector) :
    sumSlots u (displaySlots u) = u := by
  funext j
  rw [sumSlots_apply u _ (displaySlots_nodup u) j]
  by_cases h : u j = 0
  · rw [if_neg (fun hm => (mem_displaySlots.mp hm) h), h]
  · rw [if_pos (mem_displaySlots.mpr h)]

/-- Splitting a dot-joined list of dot-free pieces recovers the
pieces. -/
theorem split_joinDots : ∀ ts : List (List Char), ts ≠ [] →
    (∀ t ∈ ts, '.' ∉ t) → splitOnChar '.' (joinDots ts) = ts := by
  intro ts
  induction ts with
  | nil => intro h; exact absurd rfl h
  | cons t ts ih =>
      intro _ hd
      cases ts with
      | nil => exact splitOnChar_of_not_mem '.' t (hd t (List.mem_cons_self t []))
      | cons t2 ts2 =>
          have hj : joinDots (t :: t2 :: ts2) = t ++ '.' :: joinDots (t2 :: ts2) :=
            rfl
          rw [hj, splitOnChar_append '.' t _ (hd t (List.mem_cons_self t _)),
            ih (by simp) (fun x hx => hd x (List.mem_cons_of_mem t hx))]

/-! ## Claim theorems -/

/-- C1: `convertUnitToSi(a)` is the shortcut equal to
`convertUnit(a, siForm(a.unit).siUnitVector)`; converting
`Quantity(1, "kcal")` to SI yields value 4184 with unit joule. -/
theorem convertUnitToSi_is_shortcut_and_kcal_to_joule :
    (∀ a : Quantity,
        a.convertUnitToSi = (siForm a.unit).bind fun f => a.convertUnit f.uvec) ∧
    parse "kcal" = .ok uKcal ∧
    Quantity.convertUnitToSi ⟨1, uKcal⟩ = .ok ⟨4184, uJ⟩ ∧
    displayAsIs uJ = "J" ∧ (atomicUnits 14).uname = "joule" :=
  ⟨fun _ => rfl, by decide, by decide, by decide, rfl⟩

/-- C3: `multiply`/`divide` compose the unit vectors by vector
addition/subtraction and the values by the plain numeric
product/quotient, with no conversion factor and no simplification:
`1 m × 2 cm` has value 2 and as-is unit `m.cm` — two nonzero atomic
slots, a vector distinct from `m^2` though of equal dimension and SI
form. -/
theorem multiply_divide_unit_vectors_and_values :
    (∀ a b : Quantity,
        a.multiply b = ⟨a.value * b.value, uvAdd a.unit b.unit⟩ ∧
        a.divide b = ⟨a.value / b.value, uvSub a.unit b.unit⟩) ∧
    parse "m" = .ok uM ∧ parse "cm" = .ok uCm ∧
    Quantity.multiply ⟨1, uM⟩ ⟨2, uCm⟩ = ⟨2, uvAdd uM uCm⟩ ∧
    displayAsIs (uvAdd uM uCm) = "m.cm" ∧
    uvAdd uM uCm 2 = 1 ∧ uvAdd uM uCm 3 = 1 ∧
    parse "m^2" = .ok (uvScale 2 uM) ∧
    uvAdd uM uCm ≠ uvScale 2 uM ∧
    dimensionOf (uvAdd uM uCm) = dimensionOf (uvScale 2 uM) ∧
    siUnitVec (uvAdd uM uCm) = siUnitVec (uvScale 2 uM) :=
  ⟨fun _ _ => ⟨rfl, rfl⟩, by decide, by decide, by decide, by decide,
    by decide, by decide, by decide, by decide, by decide, by decide⟩

/-- C6: exponents are exact rationals: `parse "m^3/2"` stores exactly
3/2 (numerator 3, denominator 2, the value written 1.5) in the metre
slot and exactly 0 in every other slot. -/
theorem parse_fractional_exponent_exact :
    parse "m^3/2" = .ok (fun i => if i = (2 : Fin nUnits) then 3/2 else 0) ∧
    ((3/2 : ℚ).num = 3 ∧ (3/2 : ℚ).den = 2) ∧ (1.5 : ℚ) = 3/2 :=
  ⟨by decide, by decide, by norm_num⟩

/-- C2: `add` (and `subtract`) requires equal dimensions, keeps the
first operand's unit exactly, and adds (subtracts) the second value
converted into that unit — hence the asymmetry `1 J + 1 kcal = 4185 J`
but `1 kcal + 1 J = 4185/4184 kcal` (displayed `1.0002390057E+00`). -/
theorem add_keeps_left_unit_and_converts_right :
    (∀ a b q : Quantity, a.add b = .ok q →
        q.unit = a.unit ∧
          ∃ cv, convertValue b.value b.unit a.unit = .ok cv ∧
            q.value = a.value + cv) ∧
    (∀ a b q : Quantity, a.subtract b = .ok q →
        q.unit = a.unit ∧
          ∃ cv, convertValue b.value b.unit a.unit = .ok cv ∧
            q.value = a.value - cv) ∧
    Quantity.add ⟨1, uJ⟩ ⟨1, uKcal⟩ = .ok ⟨4185, uJ⟩ ∧
    Quantity.add ⟨1, uKcal⟩ ⟨1, uJ⟩ = .ok ⟨4185/4184, uKcal⟩ ∧
    (4185/4184 : ℚ) ≠ 4185 ∧
    |(4185/4184 : ℚ) - 10002390057/10000000000| < 1/10000000000 := by
  refine ⟨?_, ?_, by decide, by decide, by decide, by rw [abs_lt]; norm_num⟩
  · intro a b q h
    rw [Quantity.add] at h
    split at h
    · exact Except.noConfusion h
    · cases hcv : convertValue b.value b.unit a.unit with
      | error e => rw [hcv] at h; exact Except.noConfusion h
      | ok cv =>
          rw [hcv] at h
          obtain rfl : q = _ := (Except.ok.inj h).symm
          exact ⟨rfl, cv, rfl, rfl⟩
  · intro a b q h
    rw [Quantity.subtract] at h
    split at h
    · exact Except.noConfusion h
    · cases hcv : convertValue b.value b.unit a.unit with
      | error e => rw [hcv] at h; exact Except.noConfusion h
      | ok cv =>
          rw [hcv] at h
          obtain rfl : q = _ := (Except.ok.inj h).symm
          exact ⟨rfl, cv, rfl, rfl⟩

/-- Witness for C2 at `1 J + 1 kcal`. -/
theorem add_keeps_left_unit_and_converts_right_witness :
    (⟨4185, uJ⟩ : Quantity).unit = (⟨1, uJ⟩ : Quantity).unit ∧
      ∃ cv, convertValue 1 uKcal uJ = .ok cv ∧ (4185 : ℚ) = 1 + cv :=
  add_keeps_left_unit_and_converts_right.1 ⟨1, uJ⟩ ⟨1, uKcal⟩ ⟨4185, uJ⟩
    (by decide)

/-- C4: `equals` returns `false` — raising no error — whenever the
dimension vectors differ, and otherwise compares after conversion, so
`1 J = 1/4184 kcal` and `1 J = 1 kg.m^2.s^-2` despite the distinct
unit vectors. -/
theorem equals_false_on_dimension_mismatch :
    (∀ a b : Quantity,
        dimensionOf a.unit ≠ dimensionOf b.unit → a.equals b = .ok false) ∧
    (∀ a b : Quantity, dimensionOf a.unit = dimensionOf b.unit →
        a.equals b =
          (convertValue b.value b.unit a.unit).map fun cv => decide (a.value = cv)) ∧
    Quantity.equals ⟨1, uJ⟩ ⟨1/4184, uKcal⟩ = .ok true ∧
    parse "kg.m^2.s^-2" = .ok uEnergySi ∧
    Quantity.equals ⟨1, uJ⟩ ⟨1, uEnergySi⟩ = .ok true ∧
    uEnergySi ≠ uJ := by
  refine ⟨?_, ?_, by decide, by decide, by decide, by decide⟩
  · intro a b h
    rw [Quantity.equals, if_pos h]
  · intro a b h
    rw [Quantity.equals, if_neg (fun hne => hne h)]

/-- Witness for C4 at the dimension-mismatched pair `1 kg`, `1 m` (and
the matched pair `1 J`, `1 kcal`). -/
theorem equals_false_on_dimension_mismatch_witness :
    Quantity.equals ⟨1, uKg⟩ ⟨1, uM⟩ = .ok false ∧
      Quantity.equals ⟨1, uJ⟩ ⟨1, uKcal⟩ =
        (convertValue 1 uKcal uJ).map fun cv => decide ((1 : ℚ) = cv) :=
  ⟨equals_false_on_dimension_mismatch.1 ⟨1, uKg⟩ ⟨1, uM⟩ (by decide),
    equals_false_on_dimension_mismatch.2.1 ⟨1, uJ⟩ ⟨1, uKcal⟩ (by decide)⟩

/-- C5: `add`, `subtract`, `convertUnit` and `conversionFactor` raise
`dimensionMismatch` exactly when the two dimension vectors differ
(e.g. 1 kcal to `kg.m.s^-2`, energy vs force), and a failing
conversion leaves its input quantity unchanged (explicit-state model:
the post-state equals the input on every error). -/
theorem dimensionMismatch_exactly_on_unequal_dimensions :
    (∀ a b : Quantity,
        (a.add b = .error .dimensionMismatch ↔
          dimensionOf a.unit ≠ dimensionOf b.unit) ∧
        (a.subtract b = .error .dimensionMismatch ↔
          dimensionOf a.unit ≠ dimensionOf b.unit)) ∧
    (∀ (a : Quantity) (t : UnitVector),
        a.convertUnit t = .error .dimensionMismatch ↔
          dimensionOf a.unit ≠ dimensionOf t) ∧
    (∀ uF uT : UnitVector,
        conversionFactor uF uT = .error .dimensionMismatch ↔
          dimensionOf uF ≠ dimensionOf uT) ∧
    (∀ (a : Quantity) (t : UnitVector) (ip : Bool) (e : Err),
        (a.convertUnitSt t ip).1 = .error e → (a.convertUnitSt t ip).2 = a) ∧
    (∀ (a : Quantity) (ip : Bool) (e : Err),
        (a.convertUnitToSiSt ip).1 = .error e → (a.convertUnitToSiSt ip).2 = a) ∧
    parse "kg.m.s^-2" = .ok uForceSi ∧
    Quantity.convertUnit ⟨1, uKcal⟩ uForceSi = .error .dimensionMismatch := by
  have hSt : ∀ (a : Quantity) (t : UnitVector) (ip : Bool) (e : Err),
      (a.convertUnitSt t ip).1 = .error e → (a.convertUnitSt t ip).2 = a := by
    intro a t ip e h
    rw [Quantity.convertUnitSt] at h ⊢
    cases hc : a.convertUnit t with
    | error f => rfl
    | ok r => rw [hc] at h; exact Except.noConfusion h
  refine ⟨?_, ?_, conversionFactor_dimensionMismatch_iff, hSt, ?_,
    by decide, by decide⟩
  · intro a b
    constructor
    · rw [Quantity.add]
      constructor
      · intro h
        by_cases hd : dimensionOf a.unit ≠ dimensionOf b.unit
        · exact hd
        · rw [if_neg hd, except_map_error_iff,
            convertValue_dimensionMismatch_iff] at h
          exact absurd (fun hne => h hne.symm) hd
      · intro h; rw [if_pos h]
    · rw [Quantity.subtract]
      constructor
      · intro h
        by_cases hd : dimensionOf a.unit ≠ dimensionOf b.unit
        · exact hd
        · rw [if_neg hd, except_map_error_iff,
            convertValue_dimensionMismatch_iff] at h
          exact absurd (fun hne => h hne.symm) hd
      · intro h; rw [if_pos h]
  · intro a t
    rw [Quantity.convertUnit, except_map_error_iff,
      convertValue_dimensionMismatch_iff]
  · intro a ip e h
    rw [Quantity.convertUnitToSiSt] at h ⊢
    cases hf : siForm a.unit with
    | error f => rfl
    | ok f =>
        rw [hf] at h
        exact hSt a f.uvec ip e h

/-- Witness for C5: the failing conversion of 1 kcal to the force unit
leaves the quantity unchanged, and the mismatch equivalences at the
concrete energy/force pair. -/
theorem dimensionMismatch_exactly_on_unequal_dimensions_witness :
    ((⟨1, uKcal⟩ : Quantity).convertUnitSt uForceSi true).2 = ⟨1, uKcal⟩ ∧
      (Quantity.add ⟨1, uKcal⟩ ⟨1, uForceSi⟩ = .error .dimensionMismatch ↔
        dimensionOf uKcal ≠ dimensionOf uForceSi) :=
  ⟨dimensionMismatch_exactly_on_unequal_dimensions.2.2.2.1 ⟨1, uKcal⟩ uForceSi
      true .dimensionMismatch (by decide),
    (dimensionMismatch_exactly_on_unequal_dimensions.1 ⟨1, uKcal⟩
      ⟨1, uForceSi⟩).1⟩

/-- C7: an affine (nonzero-offset) atomic unit is rejected by the
conversion engine with `invalidAffineComposition` exactly when it is
used other than as the sole term with exponent exactly 1: `°C^2` and
`°C.K` are rejected, sole `°C` with exponent 1 is accepted. -/
theorem invalidAffineComposition_exactly_on_nonsole_affine :
    (∀ u : UnitVector,
        siForm u = .error .invalidAffineComposition ↔
          ∃ i, u i ≠ 0 ∧ (atomicUnits i).siOffset ≠ 0 ∧ u ≠ basisVec i) ∧
    parse "°C^2" = .ok (uvScale 2 uCel) ∧
    siForm (uvScale 2 uCel) = .error .invalidAffineComposition ∧
    parse "°C.K" = .ok (uvAdd uCel uK) ∧
    siForm (uvAdd uCel uK) = .error .invalidAffineComposition ∧
    parse "°C" = .ok uCel ∧
    siForm uCel = .ok ⟨uK, 1, 5463/20⟩ := by
  refine ⟨?_, by decide, by decide, by decide, by decide, by decide, by decide⟩
  intro u
  constructor
  · intro h
    cases ha : affineSlot u with
    | none => rw [siForm_of_none ha] at h; exact Except.noConfusion h
    | some i =>
        by_cases hb : u = basisVec i
        · rw [siForm_of_some_basis ha hb] at h; exact Except.noConfusion h
        · exact ⟨i, (affineSlot_some ha).1, (affineSlot_some ha).2, hb⟩
  · rintro ⟨i, hu, ho, hb⟩
    cases ha : affineSlot u with
    | none =>
        rcases affineSlot_eq_none_iff.mp ha i with h0 | h0
        · exact absurd h0 hu
        · exact absurd h0 ho
    | some j =>
        by_cases hbj : u = basisVec j
        · exfalso
          apply hb
          have hij : i = j := basisVec_ne_zero (hbj ▸ hu)
          rw [hij]; exact hbj
        · exact siForm_of_some_not_basis ha hbj

/-- Witness for C7 at the squared Celsius vector. -/
theorem invalidAffineComposition_exactly_on_nonsole_affine_witness :
    siForm (uvScale 2 uCel) = .error .invalidAffineComposition :=
  (invalidAffineComposition_exactly_on_nonsole_affine.1 (uvScale 2 uCel)).mpr
    ⟨9, by decide, by decide, by decide⟩

/-- C8 counterexample: the expression `m^0` parses (to the zero unit
vector), but the canonical as-is display of that vector is the empty
string, which does not parse back — so the round trip fails for the
parseable expression `m^0` as the claim states it. -/
theorem roundTrip_counterexample_m_pow_zero :
    parse "m^0" = .ok uvZero ∧ displayAsIs uvZero = "" ∧
      parse (displayAsIs uvZero) = .error (.unknownUnit "") ∧
      parse (displayAsIs uvZero) ≠ parse "m^0" := by
  refine ⟨by decide, by decide, by decide, by decide⟩

/-- C8 (amended): for every unit vector with at least one nonzero slot
— in particular the vector of every parseable expression other than
the dimensionless ones like `m^0` — parsing the canonical as-is
display returns exactly the stored unit vector. -/
theorem parse_displayAsIs_roundTrip (u : UnitVector) (h : ∃ i, u i ≠ 0) :
    parse (displayAsIs u) = .ok u := by
  obtain ⟨i0, hi0⟩ := h
  have hne : (displaySlots u).map (fun i => renderTerm i (u i)) ≠ [] := by
    intro hnil
    rw [List.map_eq_nil_iff] at hnil
    have hm := mem_displaySlots.mpr hi0
    rw [hnil] at hm
    exact absurd hm (List.not_mem_nil i0)
  have hdata : (displayAsIs u).data
      = joinDots ((displaySlots u).map (fun i => renderTerm i (u i))) := rfl
  rw [parse, hdata, split_joinDots _ hne ?_, parseTermList_map u,
    sumSlots_displaySlots]
  intro t ht
  obtain ⟨i, _, rfl⟩ := List.mem_map.mp ht
  exact renderTerm_no_dot i (u i)

/-- Witness for the amended C8 at the vector of `m^3/2.s^-2` (a
fractional and a negative exponent). -/
theorem parse_displayAsIs_roundTrip_witness :
    (∃ i, uvAdd (uvScale (3/2) uM) (uvScale (-2) uS) i ≠ 0) ∧
      parse (displayAsIs (uvAdd (uvScale (3/2) uM) (uvScale (-2) uS)))
        = .ok (uvAdd (uvScale (3/2) uM) (uvScale (-2) uS)) :=
  ⟨⟨2, by decide⟩, parse_displayAsIs_roundTrip _ ⟨2, by decide⟩⟩

/-- C9: the non-in-place conversions return a new quantity and leave
the receiver unchanged (after converting `1 kcal` to SI the original
is still `1 kcal`); only the `inplace` variant overwrites the
receiver, modelled as explicit state passing. -/
theorem convertUnit_inplace_frame :
    (∀ (a : Quantity) (t : UnitVector),
        a.convertUnitSt t false = (a.convertUnit t, a)) ∧
    (∀ a : Quantity, a.convertUnitToSiSt false = (a.convertUnitToSi, a)) ∧
    (∀ (a : Quantity) (t : UnitVector) (r : Quantity),
        a.convertUnit t = .ok r → a.convertUnitSt t true = (.ok r, r)) ∧
    (∀ a r : Quantity,
        a.convertUnitToSi = .ok r → a.convertUnitToSiSt true = (.ok r, r)) ∧
    Quantity.convertUnitToSiSt ⟨1, uKcal⟩ false = (.ok ⟨4184, uJ⟩, ⟨1, uKcal⟩) ∧
    displayAsIs uKcal = "kcal" ∧
    Quantity.convertUnitToSiSt ⟨1, uKcal⟩ true = (.ok ⟨4184, uJ⟩, ⟨4184, uJ⟩) := by
  refine ⟨?_, ?_, ?_, ?_, by decide, by decide, by decide⟩
  · intro a t
    rw [Quantity.convertUnitSt]
    cases hc : a.convertUnit t <;> rfl
  · intro a
    rw [Quantity.convertUnitToSiSt, Quantity.convertUnitToSi]
    cases hf : siForm a.unit with
    | error e => rfl
    | ok f =>
        show a.convertUnitSt f.uvec false = (a.convertUnit f.uvec, a)
        rw [Quantity.convertUnitSt]
        cases hc : a.convertUnit f.uvec <;> rfl
  · intro a t r h
    rw [Quantity.convertUnitSt, h]
    exact rfl
  · intro a r h
    rw [Quantity.convertUnitToSi] at h
    rw [Quantity.convertUnitToSiSt]
    cases hf : siForm a.unit with
    | error e => rw [hf] at h; exact Except.noConfusion h
    | ok f =>
        rw [hf] at h
        have hc : a.convertUnit f.uvec = .ok r := h
        show a.convertUnitSt f.uvec true = (.ok r, r)
        rw [Quantity.convertUnitSt, hc]
        exact rfl

/-- Witness for C9: in-place conversion of `1 kcal` to joule overwrites
the receiver with the converted quantity. -/
theorem convertUnit_inplace_frame_witness :
    Quantity.convertUnitSt ⟨1, uKcal⟩ uJ true = (.ok ⟨4184, uJ⟩, ⟨4184, uJ⟩) :=
  convertUnit_inplace_frame.2.2.1 ⟨1, uKcal⟩ uJ ⟨4184, uJ⟩ (by decide)

/-- C10: `is_in_si_unit` holds exactly when every atomic unit used with
nonzero exponent is flagged is-SI: true for `1 J` and `1 J.s`, false
for `1 J.ns`. -/
theorem isInSiUnit_iff_all_slots_si :
    (∀ q : Quantity,
        q.isInSiUnit = true ↔ ∀ i, q.unit i ≠ 0 → (atomicUnits i).isSi = true) ∧
    Quantity.isInSiUnit ⟨1, uJ⟩ = true ∧
    parse "J.s" = .ok uJs ∧ Quantity.isInSiUnit ⟨1, uJs⟩ = true ∧
    parse "J.ns" = .ok uJns ∧ Quantity.isInSiUnit ⟨1, uJns⟩ = false :=
  ⟨fun q => by simp [Quantity.isInSiUnit],
    by decide, by decide, by decide, by decide, by decide⟩

end Duq
